import Mathlib

/-!
Shallow embedding of the `hq` streaming HTML-transformation pipeline
(`src/pipeline.rs`, `src/exec.rs`) and proofs about it.

The core of the program (Pipeline / Pass / Selector / Action / PipelineSink /
Exec) is translated directly from the Rust source.  Three external crates are
treated, as the specification prescribes, as supplied capabilities:

* `regex` (attribute-value pattern substitution): modelled by `Hq.RePattern`,
  restricted to literal patterns with an optional leading `^` anchor — the
  only pattern shape the repository constructs (`"^http:"`).
* `minijinja` (template rendering): modelled by an abstract rendering
  function `Hq.RenderFn` returning `Option String` (`none` = render error,
  which the Rust code turns into a fatal `unwrap` panic).
* `lol_html` (streaming selector matching and serialization): modelled by an
  abstract event trace (`Hq.PEvent`): the matcher invokes the registered
  element handler on each match (`enterEl`), invokes the `on_after_end_tag`
  handler when the element's closing tag is reached (`leaveEl`), and emits
  serialized byte chunks through the registered output sink (`emit`).
-/

namespace Hq

/-- Modelled from the spec: the external pattern-substitution capability
(spec §6), restricted to the shape the repository actually uses — a literal
string with an optional leading start-of-input anchor `^`.  `anchored` records
whether the pattern began with `^`; `lit` is the remaining literal text. -/
structure RePattern where
  anchored : Bool
  lit : List Char
deriving DecidableEq

/-- Models `Regex::new` for the supported pattern subset: a leading `^`
yields an anchored pattern over the rest, anything else a plain literal. -/
def Regex.new (pat : String) : RePattern :=
  match pat.data with
  | '^' :: rest => { anchored := true, lit := rest }
  | _ => { anchored := false, lit := pat.data }

/-- Worker for `replaceAllLit`, with explicit fuel (one unit per input
character) so that the recursion is structural: at each position, if the
literal matches there, emit the replacement and skip past the match,
otherwise keep the character. -/
def replaceAllLitAux (lit repl : List Char) : Nat → List Char → List Char
  | _, [] => []
  | 0, l => l
  | fuel + 1, c :: rest =>
    if lit.isPrefixOf (c :: rest) then
      repl ++ replaceAllLitAux lit repl fuel (List.drop (lit.length - 1) rest)
    else
      c :: replaceAllLitAux lit repl fuel rest

/-- Replace every (leftmost, non-overlapping) occurrence of the literal `lit`
in the input with `repl`, scanning left to right. -/
def replaceAllLit (lit repl l : List Char) : List Char :=
  replaceAllLitAux lit repl l.length l

/-- Does the literal `lit` occur anywhere in the input? -/
def containsSub (lit : List Char) : List Char → Bool
  | [] => lit.isEmpty
  | c :: rest => lit.isPrefixOf (c :: rest) || containsSub lit rest

/-- Models `Regex::replace_all`: an anchored pattern can match only at the
start of the input (at most once); an unanchored literal is replaced at every
occurrence. -/
def RePattern.replaceAll (p : RePattern) (input repl : List Char) : List Char :=
  if p.anchored then
    if p.lit.isPrefixOf input then repl ++ List.drop p.lit.length input else input
  else replaceAllLit p.lit repl input

/-- Models `Regex::is_match` for the supported subset. -/
def RePattern.matchesIn (p : RePattern) (input : List Char) : Bool :=
  if p.anchored then p.lit.isPrefixOf input else containsSub p.lit input

/-- `replace_all` on `String`s. -/
def RePattern.replaceAllS (p : RePattern) (input repl : String) : String :=
  ⟨p.replaceAll input.data repl.data⟩

/-- Pattern match test on `String`s. -/
def RePattern.matchesS (p : RePattern) (input : String) : Bool :=
  p.matchesIn input.data

/-- Models `lol_html::html_content::ContentType` as used by the program
(`set_inner_content(..., ContentType::Html)`): `Html` means the replacement
text is interpreted as markup, `Text` means it would be escaped. -/
inductive ContentType where
  | Html
  | Text
deriving DecidableEq

/-- The inner content of a matched element: either left as in the input
document, or replaced by `set_inner_content` with the given text and content
type. -/
inductive InnerContent where
  | original
  | replaced (content : String) (ctype : ContentType)
deriving DecidableEq

/-- Models the mutable `lol_html` `Element` handle visible to an element
content handler: tag name, attribute list (document order), inner content. -/
structure Element where
  tag_name : String
  attributes : List (String × String)
  inner : InnerContent
deriving DecidableEq

/-- Models `Element::get_attribute`: the value of the attribute with the
given name, if present. -/
def Element.get_attribute (el : Element) (name : String) : Option String :=
  (el.attributes.find? (fun kv => kv.1 = name)).map (fun kv => kv.2)

/-- Replace the value of the attribute `name` in place, or append the
attribute if absent (the behaviour of `Element::set_attribute`). -/
def setAttrList (name val : String) : List (String × String) → List (String × String)
  | [] => [(name, val)]
  | (k, w) :: rest =>
    if k = name then (name, val) :: rest else (k, w) :: setAttrList name val rest

/-- Models `Element::set_attribute`. -/
def Element.set_attribute (el : Element) (name val : String) : Element :=
  { el with attributes := setAttrList name val el.attributes }

/-- The render context built for a `SetInnerContent` action: the element's
tag name under key `tag`, and the attribute map under key `attributes`
(`context! { tag => el.tag_name(), attributes }` in the source). -/
structure TemplateCtx where
  tag : String
  attributes : List (String × String)
deriving DecidableEq

/-- Modelled from the spec: the external template-rendering capability
(spec §6) — "given a template string and a key/value context, produce
rendered text", failing (`none`) on an undefined context reference or a
template syntax error. -/
def RenderFn : Type := String → TemplateCtx → Option String

/-- Insertion into a key-sorted association list: the ordered-map step
underlying `collect::<BTreeMap<_, _>>()` (replace on an equal key, otherwise
keep keys strictly increasing). -/
def btInsert (k v : String) : List (String × String) → List (String × String)
  | [] => [(k, v)]
  | (k', v') :: rest =>
    if k = k' then (k, v) :: rest
    else if k < k' then (k, v) :: (k', v') :: rest
    else (k', v') :: btInsert k v rest

/-- Models `iter().map(|x| (x.name(), x.value())).collect::<BTreeMap<_, _>>()`:
fold the bindings in iteration order into an ordered map (a later binding for
the same key overwrites an earlier one). -/
def btreeOfList (l : List (String × String)) : List (String × String) :=
  l.foldl (fun acc kv => btInsert kv.1 kv.2 acc) []

/-- Models `PassState` from `src/pipeline.rs`: the per-pass visibility stack.
`output_enabled` is a `Vec<bool>` used as a stack: push appends at the end,
the top is the last element, pop removes the last element. -/
structure PassState where
  output_enabled : List Bool
deriving DecidableEq

/-- Models `state.output_enabled.last().copied().unwrap_or(true)`: the
visibility read performed by the sink on every emitted chunk — the stack top,
defaulting to `true` on an empty stack. -/
def PassState.visibleNow (st : PassState) : Bool :=
  st.output_enabled.getLast?.getD true

/-- Models `enum Action` from `src/pipeline.rs`. -/
inductive Action where
  | Filter
  | RewriteAttribute (attr : String) (regex : RePattern) (replacement : String)
  | SetInnerContent (template : String)
deriving DecidableEq

/-- Models `Action::enter`.  `Filter` pushes `true` on the visibility stack;
`RewriteAttribute` reads the named attribute (absent treated as the empty
string via `unwrap_or_default`), applies `replace_all`, and writes the result
back; `SetInnerContent` builds the render context (tag name plus the
attribute `BTreeMap`), renders the template, and replaces the inner content
as HTML — a render failure (`unwrap` panic in the source) yields `none`. -/
def Action.enter (a : Action) (render : RenderFn) (el : Element) (st : PassState) :
    Option (Element × PassState) :=
  match a with
  | .Filter => some (el, { st with output_enabled := st.output_enabled ++ [true] })
  | .RewriteAttribute attr regex replacement =>
    let val := (el.get_attribute attr).getD ""
    let rv := regex.replaceAllS val replacement
    some (el.set_attribute attr rv, st)
  | .SetInnerContent template =>
    let attributes := btreeOfList el.attributes
    match render template { tag := el.tag_name, attributes } with
    | some s => some ({ el with inner := .replaced s .Html }, st)
    | none => none

/-- Models `Action::leave`: `Filter` pops the visibility stack
(`Vec::pop`, a silent no-op on an empty stack); the other actions do
nothing. -/
def Action.leave (a : Action) (tag : String) (st : PassState) : PassState :=
  match a, tag with
  | .Filter, _ => { st with output_enabled := st.output_enabled.dropLast }
  | _, _ => st

/-- Number of `Filter` actions in a list (the net number of visibility-stack
pushes an `enter` sweep performs). -/
def countFilters : List Action → Nat
  | [] => 0
  | .Filter :: rest => countFilters rest + 1
  | _ :: rest => countFilters rest

/-- Models `struct Selector`: a structural match pattern and the ordered
actions to run on each matching element. -/
structure Selector where
  selector : String
  actions : List Action
deriving DecidableEq

/-- Models `struct Pass`: a declaration index and an ordered selector list. -/
structure Pass where
  idx : Nat
  selectors : List Selector
deriving DecidableEq

/-- The inner loop of `Pass::default_output`: does an action list contain a
`Filter` (early return on the first one found)? -/
def actionsHaveFilter : List Action → Bool
  | [] => false
  | .Filter :: _ => true
  | _ :: rest => actionsHaveFilter rest

/-- The outer loop of `Pass::default_output` over the selectors. -/
def selectorsHaveFilter : List Selector → Bool
  | [] => false
  | s :: rest => actionsHaveFilter s.actions || selectorsHaveFilter rest

/-- Models `Pass::default_output`: `false` as soon as any selector's action
list contains a `Filter`, `true` otherwise. -/
def Pass.default_output (p : Pass) : Bool :=
  if selectorsHaveFilter p.selectors then false else true

/-- The `PassState` allocated in `Pass::build`:
`output_enabled: vec![self.default_output()]`. -/
def Pass.buildState (p : Pass) : PassState :=
  { output_enabled := [p.default_output] }

/-- Where a chunk handed to `PipelineSink::handle_chunk` ends up. -/
inductive ChunkFate where
  | dropped
  | toDownstream (chunk : String)
  | toOutput (chunk : String)
deriving DecidableEq

/-- Models `PipelineSink::handle_chunk`: read the visibility stack top
(default `true` when empty); if visible, forward the chunk — to the wrapped
downstream rewriter when `forward_to_rewriter` is `Some`, otherwise to the
Execution Context's output buffer — and drop it otherwise. -/
def PipelineSink.handle_chunk (hasDownstream : Bool) (st : PassState) (chunk : String) :
    ChunkFate :=
  if st.visibleNow then
    if hasDownstream then .toDownstream chunk else .toOutput chunk
  else .dropped

/-- A compiled stage as produced by `Pass::build`: the pass it was compiled
from, the freshly allocated visibility-stack state, and the wrapped
downstream stage (`None` for the stage that writes straight to the Execution
Context). -/
inductive CStage where
  | mk (pass : Pass) (st0 : PassState) (next : Option CStage)

/-- The pass a compiled stage was built from. -/
def CStage.pass : CStage → Pass
  | .mk p _ _ => p

/-- The visibility-stack state allocated when the stage was built. -/
def CStage.st0 : CStage → PassState
  | .mk _ s _ => s

/-- The downstream stage this stage forwards surviving output to (`none`
means the stage writes to the Execution Context's output buffer). -/
def CStage.next : CStage → Option CStage
  | .mk _ _ n => n

/-- The passes of a compiled chain, listed from the external entry point
inward along the `next` pointers (the last listed stage has no downstream
and writes to the Execution Context). -/
def CStage.chain : CStage → List Pass
  | .mk p _ none => [p]
  | .mk p _ (some n) => p :: n.chain

/-- The pass of the terminal stage — the stage with no downstream, which
writes to the Execution Context's output buffer. -/
def CStage.terminalPass : CStage → Pass
  | .mk p _ none => p
  | .mk _ _ (some n) => n.terminalPass

/-- Models `Pass::build`: allocate the pass state with the single base entry
`default_output`, and wire the stage's sink to the given downstream stage.
Returns the compiled stage and (as in the source) the state handle. -/
def Pass.buildC (p : Pass) (next : Option CStage) : CStage × PassState :=
  (CStage.mk p p.buildState next, p.buildState)

/-- Models `struct Pipeline`: the passes in declaration order. -/
structure Pipeline where
  passes : List Pass
deriving DecidableEq

/-- Models `Pipeline::new` / `Pipeline::default`. -/
def Pipeline.new : Pipeline := { passes := [] }

/-- Models `Pipeline::add_pass`: append a pass whose `idx` is the number of
previously declared passes; the builder closure contributes the selector
list. -/
def Pipeline.add_pass (pl : Pipeline) (sels : List Selector) : Pipeline :=
  { passes := pl.passes ++ [{ idx := pl.passes.length, selectors := sels }] }

/-- The loop body of `Pipeline::build`: iterate the passes in declaration
order, compiling each with the previously compiled stage as its downstream,
and remember the first-declared pass's state handle (`root_state`). -/
def Pipeline.buildAux : List Pass → Option CStage → Option PassState →
    Option CStage × Option PassState
  | [], rewriter, root_state => (rewriter, root_state)
  | p :: rest, rewriter, root_state =>
    let built := p.buildC rewriter
    Pipeline.buildAux rest (some built.1)
      (if root_state.isNone then some built.2 else root_state)

/-- Models `Pipeline::build`: run the chaining loop and unwrap the entry
stage and the root state (`None` — a panic in the source — when no pass was
declared). -/
def Pipeline.build (pl : Pipeline) : Option (CStage × PassState) :=
  match Pipeline.buildAux pl.passes none none with
  | (some rewriter, some root_state) => some (rewriter, root_state)
  | _ => none

/-- Modelled from the spec: one observable event delivered to a compiled
pass by the external streaming matcher/serializer (spec §6).  `enterEl i el`
is the element content handler firing because `el` matched selector number
`i` of the pass; `leaveEl i tag` is the corresponding `on_after_end_tag`
handler firing when that element's closing tag is reached; `emit chunk` is
the serializer handing a chunk of output bytes to the pass's sink. -/
inductive PEvent where
  | enterEl (selIdx : Nat) (el : Element)
  | leaveEl (selIdx : Nat) (tag : String)
  | emit (chunk : String)

/-- The state of one pass during one execution: its visibility stack plus
the chunks its sink has forwarded so far (for the terminal stage these are
the writes into the Execution Context's output buffer). -/
structure RunState where
  st : PassState
  out : List String
deriving DecidableEq

/-- The selector of a pass addressed by an event index; an out-of-range
index denotes a selector with no actions (such an event is a no-op). -/
def Pass.selAt (p : Pass) (i : Nat) : Selector :=
  (p.selectors.get? i).getD { selector := "", actions := [] }

/-- The enter sweep of the element content handler registered in
`Pass::build`: `for action in &selector.actions { action.enter(el, state) }`,
threading the mutated element and pass state, aborting on a render
failure. -/
def runEnters (acts : List Action) (render : RenderFn) (el : Element) (st : PassState) :
    Option (Element × PassState) :=
  match acts with
  | [] => some (el, st)
  | a :: rest =>
    match a.enter render el st with
    | none => none
    | some (el', st') => runEnters rest render el' st'

/-- The leave sweep registered via `on_after_end_tag`:
`for action in &selector.actions { action.leave(&tag.name(), state) }`. -/
def runLeaves (acts : List Action) (tag : String) (st : PassState) : PassState :=
  match acts with
  | [] => st
  | a :: rest => runLeaves rest tag (a.leave tag st)

/-- One event of a single compiled pass, for a pass whose sink writes to the
Execution Context (the terminal stage: `forward_to_rewriter` is `None`).
The element value resulting from an enter sweep is consumed by the external
serializer (it shapes later `emit` chunks) and is not tracked further
here. -/
def Pass.runStep (p : Pass) (render : RenderFn) (rs : RunState) : PEvent → Option RunState
  | .enterEl i el =>
    match runEnters (p.selAt i).actions render el rs.st with
    | none => none
    | some (_, st') => some { rs with st := st' }
  | .leaveEl i tag =>
    some { rs with st := runLeaves (p.selAt i).actions tag rs.st }
  | .emit chunk =>
    match PipelineSink.handle_chunk false rs.st chunk with
    | .toOutput c => some { rs with out := rs.out ++ [c] }
    | _ => some rs

/-- Process a whole event trace, aborting on the first failing step. -/
def Pass.runEvents (p : Pass) (render : RenderFn) (rs : RunState) :
    List PEvent → Option RunState
  | [] => some rs
  | e :: rest =>
    match p.runStep render rs e with
    | none => none
    | some rs' => p.runEvents render rs' rest

/-- Like `Pass.runEvents`, but additionally returns the minimum visibility
stack depth observed at any event boundary (including before the first and
after the last event) — the instrumentation used to state the stack-depth
invariant. -/
def Pass.runMin (p : Pass) (render : RenderFn) (rs : RunState) :
    List PEvent → Option (RunState × Nat)
  | [] => some (rs, rs.st.output_enabled.length)
  | e :: rest =>
    match p.runStep render rs e with
    | none => none
    | some rs' =>
      match p.runMin render rs' rest with
      | none => none
      | some (rsF, m) => some (rsF, min rs.st.output_enabled.length m)

/-- Models `struct Exec` for a single-pass pipeline: the compiled pass plus
the pass state captured inside the compiled rewriter at build time.  As in
the source, the state is created once by `Pass::build` and lives inside the
compiled structure across calls to `exec`. -/
structure ExecM where
  pass : Pass
  passSt : PassState
deriving DecidableEq

/-- Build an `ExecM` the way `Pipeline::build`/`Pass::build` do: the
visibility stack starts as the single base entry `default_output`. -/
def ExecM.build (p : Pass) : ExecM :=
  { pass := p, passSt := p.buildState }

/-- Models `Exec::exec`: install a fresh `ExecState` (empty output buffer),
feed the input — here, the event trace the external matcher derives from the
input bytes — to the compiled rewriter, and hand the accumulated output to
the caller.  The visibility stack is whatever the compiled rewriter already
holds (it is *not* re-allocated per call), and its final value stays inside
the compiled structure for the next call.  A failing step (the source's
`unwrap` panics) aborts the run with no output. -/
def ExecM.exec (e : ExecM) (render : RenderFn) (events : List PEvent) :
    Option (ExecM × String) :=
  match e.pass.runEvents render { st := e.passSt, out := [] } events with
  | none => none
  | some rs => some ({ e with passSt := rs.st }, String.join rs.out)

/-- Balanced event traces: every `enterEl` is paired with a `leaveEl`
carrying the same selector index, and the pairs are properly nested; `emit`
events may appear anywhere. -/
inductive Balanced : List PEvent → Prop where
  | nil : Balanced []
  | emit (s : String) (rest : List PEvent) :
      Balanced rest → Balanced (PEvent.emit s :: rest)
  | wrap (i : Nat) (el : Element) (tag : String) (inner rest : List PEvent) :
      Balanced inner → Balanced rest →
      Balanced (PEvent.enterEl i el :: inner ++ PEvent.leaveEl i tag :: rest)

/-- Lookup in an association list: the value of the first binding whose key
equals `k`. -/
def btLookup (k : String) : List (String × String) → Option String
  | [] => none
  | (k', v) :: rest => if k = k' then some v else btLookup k rest

/-- A concrete two-pass pipeline (the shape `main.rs` declares: a filtering
pass added first, a rewriting/templating pass added second), used to
instantiate the chain-ordering theorem. -/
def c1Pipeline : Pipeline :=
  (Pipeline.new.add_pass [⟨"ul.menu", [Action.Filter]⟩]).add_pass
    [⟨"a[href]", [Action.RewriteAttribute "href" (Regex.new "^http:") "https:",
                  Action.SetInnerContent "{{ attributes|tojson }}"]⟩]

/-! ## Supporting lemmas -/

theorem actionsHaveFilter_iff (acts : List Action) :
    actionsHaveFilter acts = true ↔ Action.Filter ∈ acts := by
  induction acts with
  | nil => simp [actionsHaveFilter]
  | cons a rest ih => cases a <;> simp [actionsHaveFilter, ih]

theorem selectorsHaveFilter_iff (sels : List Selector) :
    selectorsHaveFilter sels = true ↔ ∃ s ∈ sels, Action.Filter ∈ s.actions := by
  induction sels with
  | nil => simp [selectorsHaveFilter]
  | cons s rest ih => simp [selectorsHaveFilter, ih, actionsHaveFilter_iff]

theorem replaceAllLitAux_of_not_contains (lit repl : List Char) :
    ∀ (fuel : Nat) (l : List Char), containsSub lit l = false →
      replaceAllLitAux lit repl fuel l = l := by
  intro fuel
  induction fuel with
  | zero => intro l h; cases l <;> simp [replaceAllLitAux]
  | succ n ih =>
    intro l h
    cases l with
    | nil => simp [replaceAllLitAux]
    | cons c rest =>
      rw [containsSub, Bool.or_eq_false_iff] at h
      simp [replaceAllLitAux, h.1, ih rest h.2]

theorem replaceAll_of_not_matches (p : RePattern) (input repl : List Char)
    (h : p.matchesIn input = false) :
    p.replaceAll input repl = input := by
  unfold RePattern.matchesIn at h
  unfold RePattern.replaceAll replaceAllLit
  cases ha : p.anchored
  · simp only [ha, Bool.false_eq_true, if_false] at h ⊢
    exact replaceAllLitAux_of_not_contains _ _ _ _ h
  · simp only [ha, eq_self_iff_true, if_true] at h ⊢
    simp [h]

theorem find?_setAttrList (name v : String) (l : List (String × String)) :
    (setAttrList name v l).find? (fun kv => kv.1 = name) = some (name, v) := by
  induction l with
  | nil => simp [setAttrList]
  | cons kv rest ih =>
    obtain ⟨k, w⟩ := kv
    by_cases hk : k = name
    · simp [setAttrList, hk]
    · simp [setAttrList, hk, ih]

theorem get_set_attribute (el : Element) (name v : String) :
    (el.set_attribute name v).get_attribute name = some v := by
  unfold Element.set_attribute Element.get_attribute
  simp [find?_setAttrList]

theorem mem_btInsert (k v : String) (t : List (String × String)) (x : String × String)
    (hx : x ∈ btInsert k v t) : x = (k, v) ∨ x ∈ t := by
  induction t with
  | nil =>
    simp [btInsert] at hx
    exact Or.inl hx
  | cons kv rest ih =>
    obtain ⟨k', w⟩ := kv
    simp only [btInsert] at hx
    split at hx
    · rcases List.mem_cons.mp hx with h | h
      · exact Or.inl h
      · exact Or.inr (List.mem_cons_of_mem _ h)
    · split at hx
      · rcases List.mem_cons.mp hx with h | h
        · exact Or.inl h
        · exact Or.inr h
      · rcases List.mem_cons.mp hx with h | h
        · exact Or.inr (List.mem_cons.mpr (Or.inl h))
        · rcases ih h with h' | h'
          · exact Or.inl h'
          · exact Or.inr (List.mem_cons_of_mem _ h')

theorem pairwise_btInsert (k v : String) (t : List (String × String))
    (h : t.Pairwise (fun a b => a.1 < b.1)) :
    (btInsert k v t).Pairwise (fun a b => a.1 < b.1) := by
  induction t with
  | nil => simp [btInsert]
  | cons kv rest ih =>
    obtain ⟨k', w⟩ := kv
    rw [List.pairwise_cons] at h
    obtain ⟨hhead, hrest⟩ := h
    simp only [btInsert]
    split
    · rename_i heq
      subst heq
      exact List.pairwise_cons.mpr ⟨fun y hy => hhead y hy, hrest⟩
    · split
      · rename_i hne hlt
        refine List.pairwise_cons.mpr ⟨?_, List.pairwise_cons.mpr ⟨hhead, hrest⟩⟩
        intro y hy
        rcases List.mem_cons.mp hy with h | h
        · rw [h]; exact hlt
        · exact lt_trans hlt (hhead y h)
      · rename_i hne hnlt
        refine List.pairwise_cons.mpr ⟨?_, ih hrest⟩
        intro y hy
        have hk : k' < k := by
          rcases lt_trichotomy k k' with h | h | h
          · exact absurd h hnlt
          · exact absurd h hne
          · exact h
        rcases mem_btInsert k v rest y hy with h | h
        · rw [h]; exact hk
        · exact hhead y h

theorem btLookup_btInsert (k' k v : String) (t : List (String × String)) :
    btLookup k' (btInsert k v t) = if k' = k then some v else btLookup k' t := by
  induction t with
  | nil => by_cases h : k' = k <;> simp [btInsert, btLookup, h]
  | cons kv rest ih =>
    obtain ⟨k₀, w⟩ := kv
    simp only [btInsert]
    split
    · rename_i heq
      subst heq
      by_cases h : k' = k <;> simp [btLookup, h]
    · rename_i hne
      split
      · by_cases h : k' = k <;> simp [btLookup, h]
      · by_cases h : k' = k
        · subst h
          simp [btLookup, hne, ih]
        · by_cases h₀ : k' = k₀
          · subst h₀
            simp [btLookup, h]
          · simp [btLookup, h₀, h, ih]

theorem btreeOfList_concat (l : List (String × String)) (kv : String × String) :
    btreeOfList (l ++ [kv]) = btInsert kv.1 kv.2 (btreeOfList l) := by
  simp [btreeOfList, List.foldl_append]

theorem pairwise_btreeOfList (l : List (String × String)) :
    (btreeOfList l).Pairwise (fun a b => a.1 < b.1) := by
  induction l using List.reverseRecOn with
  | nil => simp [btreeOfList]
  | append_singleton l kv ih =>
    rw [btreeOfList_concat]
    exact pairwise_btInsert _ _ _ ih

theorem btLookup_btreeOfList (k : String) (l : List (String × String)) :
    btLookup k (btreeOfList l) = btLookup k l.reverse := by
  induction l using List.reverseRecOn with
  | nil => simp [btreeOfList]
  | append_singleton l kv ih =>
    obtain ⟨k₀, v₀⟩ := kv
    rw [btreeOfList_concat, btLookup_btInsert]
    by_cases h : k = k₀ <;> simp [btLookup, h, ih]

theorem runEvents_append (p : Pass) (render : RenderFn) (rs : RunState) (a b : List PEvent) :
    p.runEvents render rs (a ++ b)
      = match p.runEvents render rs a with
        | none => none
        | some rs' => p.runEvents render rs' b := by
  induction a generalizing rs with
  | nil => simp [Pass.runEvents]
  | cons e rest ih =>
    simp only [List.cons_append, Pass.runEvents]
    cases p.runStep render rs e <;> simp [ih]

theorem chain_head (c : CStage) : c.chain.head? = some c.pass := by
  cases c with
  | mk p s n => cases n <;> rfl

theorem buildAux_chain (l : List Pass) :
    ∀ (c0 : CStage) (r0 : PassState),
      ∃ c', Pipeline.buildAux l (some c0) (some r0) = (some c', some r0)
        ∧ c'.chain = l.reverse ++ c0.chain
        ∧ c'.terminalPass = c0.terminalPass := by
  induction l with
  | nil => exact fun c0 r0 => ⟨c0, rfl, by simp, rfl⟩
  | cons p rest ih =>
    intro c0 r0
    obtain ⟨c', hc, hchain, hterm⟩ := ih (CStage.mk p p.buildState (some c0)) r0
    refine ⟨c', ?_, ?_, ?_⟩
    · simpa [Pipeline.buildAux, Pass.buildC] using hc
    · rw [hchain]
      simp [CStage.chain]
    · rw [hterm]
      rfl

theorem PassState.ext_oe {a b : PassState} (h : a.output_enabled = b.output_enabled) :
    a = b :=
  congrArg PassState.mk h

theorem runEnters_stack (render : RenderFn) :
    ∀ (acts : List Action) (el : Element) (st : PassState) (el' : Element) (st' : PassState),
      runEnters acts render el st = some (el', st') →
      st'.output_enabled = st.output_enabled ++ List.replicate (countFilters acts) true := by
  intro acts
  induction acts with
  | nil =>
    intro el st el' st' h
    simp only [runEnters, Option.some_inj, Prod.mk.injEq] at h
    rw [← h.2]
    simp [countFilters]
  | cons a rest ih =>
    intro el st el' st' h
    cases a with
    | Filter =>
      simp only [runEnters, Action.enter] at h
      rw [ih _ _ _ _ h]
      simp [countFilters, List.replicate_succ]
    | RewriteAttribute attr regex replacement =>
      simp only [runEnters, Action.enter] at h
      rw [ih _ _ _ _ h]
      simp [countFilters]
    | SetInnerContent tmpl =>
      simp only [runEnters, Action.enter] at h
      cases hr : render tmpl { tag := el.tag_name, attributes := btreeOfList el.attributes } with
      | none =>
        rw [hr] at h
        simp at h
      | some s =>
        rw [hr] at h
        simp only at h
        rw [ih _ _ _ _ h]
        simp [countFilters]

theorem runLeaves_stack (tag : String) :
    ∀ (acts : List Action) (l : List Bool),
      runLeaves acts tag ⟨l ++ List.replicate (countFilters acts) true⟩ = ⟨l⟩ := by
  intro acts
  induction acts with
  | nil =>
    intro l
    simp [runLeaves, countFilters]
  | cons a rest ih =>
    intro l
    cases a with
    | Filter =>
      simp only [runLeaves, Action.leave, countFilters]
      rw [List.replicate_succ', ← List.append_assoc, List.dropLast_concat]
      exact ih l
    | RewriteAttribute attr regex replacement =>
      simp only [runLeaves, Action.leave, countFilters]
      exact ih l
    | SetInnerContent tmpl =>
      simp only [runLeaves, Action.leave, countFilters]
      exact ih l

theorem runStep_emit_st (p : Pass) (render : RenderFn) (rs : RunState) (s : String) :
    ∃ out, p.runStep render rs (PEvent.emit s) = some ⟨rs.st, out⟩ := by
  unfold Pass.runStep PipelineSink.handle_chunk
  cases hv : rs.st.visibleNow
  · exact ⟨rs.out, by simp [hv]⟩
  · exact ⟨rs.out ++ [s], by simp [hv]⟩

theorem runMin_le (p : Pass) (render : RenderFn) (rs : RunState) (t : List PEvent)
    (rsF : RunState) (m : Nat) (h : p.runMin render rs t = some (rsF, m)) :
    m ≤ rs.st.output_enabled.length := by
  cases t with
  | nil =>
    simp only [Pass.runMin, Option.some_inj, Prod.mk.injEq] at h
    omega
  | cons e rest =>
    simp only [Pass.runMin] at h
    cases hs : p.runStep render rs e with
    | none => simp [hs] at h
    | some rs' =>
      simp only [hs] at h
      cases hm : p.runMin render rs' rest with
      | none => simp [hm] at h
      | some pair =>
        obtain ⟨rsF', m'⟩ := pair
        simp only [hm, Option.some_inj, Prod.mk.injEq] at h
        omega

theorem runMin_append (p : Pass) (render : RenderFn) (a : List PEvent) :
    ∀ (rs : RunState) (b : List PEvent),
      p.runMin render rs (a ++ b)
        = match p.runMin render rs a with
          | none => none
          | some (rs1, m1) =>
            match p.runMin render rs1 b with
            | none => none
            | some (rs2, m2) => some (rs2, min m1 m2) := by
  induction a with
  | nil =>
    intro rs b
    simp only [List.nil_append, Pass.runMin]
    cases hb : p.runMin render rs b with
    | none => simp [hb]
    | some pair =>
      obtain ⟨rs2, m2⟩ := pair
      have hle := runMin_le p render rs b rs2 m2 hb
      show some (rs2, m2) = some (rs2, min rs.st.output_enabled.length m2)
      have hm : min rs.st.output_enabled.length m2 = m2 := by omega
      rw [hm]
  | cons e a' ih =>
    intro rs b
    simp only [List.cons_append, Pass.runMin, List.append_eq]
    cases hs : p.runStep render rs e with
    | none => simp [hs]
    | some rs' =>
      simp only [hs]
      rw [ih rs' b]
      cases ha : p.runMin render rs' a' with
      | none => simp [ha]
      | some pair1 =>
        obtain ⟨rs1, m1⟩ := pair1
        simp only [ha]
        cases hb : p.runMin render rs1 b with
        | none => simp [hb]
        | some pair2 =>
          obtain ⟨rs2, m2⟩ := pair2
          simp only [hb, Option.some_inj, Prod.mk.injEq]
          refine ⟨?_, by omega⟩
          trivial

theorem runStep_enter_st (p : Pass) (render : RenderFn) (rs rs1 : RunState) (i : Nat)
    (el : Element) (hs : p.runStep render rs (PEvent.enterEl i el) = some rs1) :
    rs1.st.output_enabled
        = rs.st.output_enabled ++ List.replicate (countFilters (p.selAt i).actions) true
      ∧ rs1.out = rs.out := by
  simp only [Pass.runStep] at hs
  cases he : runEnters (p.selAt i).actions render el rs.st with
  | none => simp [he] at hs
  | some pr =>
    obtain ⟨el', st'⟩ := pr
    simp only [he, Option.some_inj] at hs
    rw [← hs]
    exact ⟨runEnters_stack render _ _ _ _ _ he, rfl⟩

theorem balanced_runMin (p : Pass) (render : RenderFn) :
    ∀ {t : List PEvent}, Balanced t →
      ∀ (rs rsF : RunState) (m : Nat),
        p.runMin render rs t = some (rsF, m) →
        rsF.st = rs.st ∧ rs.st.output_enabled.length ≤ m := by
  intro t hbal
  induction hbal with
  | nil =>
    intro rs rsF m h
    simp only [Pass.runMin, Option.some_inj, Prod.mk.injEq] at h
    refine ⟨?_, by omega⟩
    rw [← h.1]
  | emit s rest hrest ih =>
    intro rs rsF m h
    simp only [Pass.runMin] at h
    obtain ⟨out, hstep⟩ := runStep_emit_st p render rs s
    simp only [hstep] at h
    cases hm : p.runMin render ⟨rs.st, out⟩ rest with
    | none => simp [hm] at h
    | some pair =>
      obtain ⟨rsF', m'⟩ := pair
      simp only [hm, Option.some_inj, Prod.mk.injEq] at h
      obtain ⟨hst, hlen⟩ := ih ⟨rs.st, out⟩ rsF' m' hm
      have hsame : ({ st := rs.st, out := out } : RunState).st.output_enabled.length
          = rs.st.output_enabled.length := rfl
      rw [hsame] at hlen
      constructor
      · rw [← h.1]; exact hst
      · omega
  | wrap i el tag inner rest hinner hrest ihinner ihrest =>
    intro rs rsF m h
    simp only [Pass.runMin] at h
    cases hs : p.runStep render rs (PEvent.enterEl i el) with
    | none => simp [hs] at h
    | some rs1 =>
      simp only [hs] at h
      obtain ⟨hoe1, hout1⟩ := runStep_enter_st p render rs rs1 i el hs
      simp only [List.append_eq] at h
      rw [runMin_append] at h
      cases hi : p.runMin render rs1 inner with
      | none => simp [hi] at h
      | some pairI =>
        obtain ⟨rs2, mI⟩ := pairI
        simp only [hi] at h
        obtain ⟨hst2, hmI⟩ := ihinner rs1 rs2 mI hi
        have hrs2oe : rs2.st.output_enabled
            = rs.st.output_enabled ++ List.replicate (countFilters (p.selAt i).actions) true := by
          rw [hst2, hoe1]
        simp only [Pass.runMin] at h
        have hleave : p.runStep render rs2 (PEvent.leaveEl i tag)
            = some ⟨⟨rs.st.output_enabled⟩, rs2.out⟩ := by
          have hl : runLeaves (p.selAt i).actions tag rs2.st = ⟨rs.st.output_enabled⟩ := by
            have h2 : rs2.st = ⟨rs.st.output_enabled
                ++ List.replicate (countFilters (p.selAt i).actions) true⟩ :=
              PassState.ext_oe hrs2oe
            rw [h2]
            exact runLeaves_stack tag _ _
          simp only [Pass.runStep, hl]
        simp only [hleave] at h
        cases hr : p.runMin render ⟨⟨rs.st.output_enabled⟩, rs2.out⟩ rest with
        | none => simp [hr] at h
        | some pairR =>
          obtain ⟨rsR, mR⟩ := pairR
          simp only [hr, Option.some_inj, Prod.mk.injEq] at h
          obtain ⟨hstR, hmR⟩ := ihrest ⟨⟨rs.st.output_enabled⟩, rs2.out⟩ rsR mR hr
          constructor
          · rw [← h.1, hstR]
          · have hlen1 : rs1.st.output_enabled.length
                = rs.st.output_enabled.length
                  + countFilters (p.selAt i).actions := by
              rw [hoe1]; simp
            have hlen2 : rs2.st.output_enabled.length
                = rs.st.output_enabled.length
                  + countFilters (p.selAt i).actions := by
              rw [hrs2oe]; simp
            have hlenR : (⟨⟨rs.st.output_enabled⟩, rs2.out⟩ : RunState).st.output_enabled.length
                = rs.st.output_enabled.length := rfl
            rw [hlenR] at hmR
            omega

theorem runMin_runEvents (p : Pass) (render : RenderFn) :
    ∀ (t : List PEvent) (rs : RunState),
      (p.runMin render rs t).map Prod.fst = p.runEvents render rs t := by
  intro t
  induction t with
  | nil => intro rs; rfl
  | cons e rest ih =>
    intro rs
    cases hs : p.runStep render rs e with
    | none => simp [Pass.runMin, Pass.runEvents, hs]
    | some rs' =>
      simp only [Pass.runMin, Pass.runEvents, hs]
      rw [← ih rs']
      cases hm : p.runMin render rs' rest with
      | none => simp [hm]
      | some pair => simp [hm]

/-! ## Claims -/

/-- C2: every chunk emitted by a compiled pass with a non-empty visibility
stack is dropped when the stack top is `false`, and forwarded when the top is
`true` — to the downstream pass's rewriter input when one exists, otherwise
to the Execution Context's output buffer. -/
theorem c2_sink_visibility (hasDownstream : Bool) (st : PassState) (chunk : String) :
    (st.output_enabled.getLast? = some false →
      PipelineSink.handle_chunk hasDownstream st chunk = ChunkFate.dropped)
    ∧ (st.output_enabled.getLast? = some true →
      PipelineSink.handle_chunk hasDownstream st chunk =
        if hasDownstream then ChunkFate.toDownstream chunk else ChunkFate.toOutput chunk) := by
  constructor <;> intro h <;>
    simp [PipelineSink.handle_chunk, PassState.visibleNow, h]

theorem c2_witness :
    PipelineSink.handle_chunk true ⟨[false]⟩ "x" = ChunkFate.dropped
    ∧ PipelineSink.handle_chunk false ⟨[true]⟩ "x" = ChunkFate.toOutput "x" :=
  ⟨(c2_sink_visibility true ⟨[false]⟩ "x").1 rfl,
   (c2_sink_visibility false ⟨[true]⟩ "x").2 rfl⟩

/-- C10: a chunk emitted while the pass's visibility stack is empty is
forwarded (the stack-top read defaults to `true` on an empty stack), and the
`Filter` leave's pop of an empty stack is a silent no-op — so unbalanced
pairing re-enables output instead of failing. -/
theorem c10_empty_stack_forwards (hasDownstream : Bool) (chunk tag : String)
    (p : Pass) (render : RenderFn) (out : List String) :
    PipelineSink.handle_chunk hasDownstream ⟨[]⟩ chunk
      = (if hasDownstream then ChunkFate.toDownstream chunk else ChunkFate.toOutput chunk)
    ∧ Action.leave Action.Filter tag ⟨[]⟩ = ⟨[]⟩
    ∧ p.runStep render ⟨⟨[]⟩, out⟩ (PEvent.emit chunk) = some ⟨⟨[]⟩, out ++ [chunk]⟩ := by
  refine ⟨?_, ?_, ?_⟩ <;>
    simp [PipelineSink.handle_chunk, PassState.visibleNow, Action.leave, Pass.runStep]

/-- C3: at build time a pass's visibility stack is the single base entry
`default_output(pass)`, and `default_output` is `false` exactly when some
selector of the pass contains a `Filter` action. -/
theorem c3_base_visibility (p : Pass) :
    (∀ next, (p.buildC next).1.st0 = { output_enabled := [p.default_output] }
      ∧ (p.buildC next).2 = { output_enabled := [p.default_output] })
    ∧ (p.default_output = false ↔ ∃ s ∈ p.selectors, Action.Filter ∈ s.actions) := by
  constructor
  · intro next; exact ⟨rfl, rfl⟩
  · rw [← selectorsHaveFilter_iff]
    unfold Pass.default_output
    cases h : selectorsHaveFilter p.selectors <;> simp [h]

/-- C6: a `RewriteAttribute` enter reads the named attribute (absent treated
as the empty string), replaces every pattern match with the replacement, and
writes the result back; concretely, value `"http://example.com"` with
pattern `^http:` and replacement `"https:"` becomes exactly
`"https://example.com"`. -/
theorem c6_rewrite_attribute (render : RenderFn) (el : Element) (st : PassState)
    (attr : String) (pat : RePattern) (repl : String) :
    Action.enter (Action.RewriteAttribute attr pat repl) render el st
      = some (el.set_attribute attr (pat.replaceAllS ((el.get_attribute attr).getD "") repl), st)
    ∧ (Regex.new "^http:").replaceAllS "http://example.com" "https:" = "https://example.com"
    ∧ ((Action.enter (Action.RewriteAttribute "href" (Regex.new "^http:") "https:") render
          ⟨"a", [("href", "http://example.com")], InnerContent.original⟩ ⟨[]⟩).map
        (fun x => x.1.get_attribute "href"))
      = some (some "https://example.com") :=
  ⟨rfl, by decide, rfl⟩

/-- C7: a `SetInnerContent` enter builds a render context holding exactly the
element's tag name and its attribute map with unique keys in sorted order
(later duplicate bindings win, as in a `BTreeMap` collect), renders the
action's template against it, and replaces the element's entire inner content
with the rendered result interpreted as markup (`ContentType.Html`), aborting
on render failure. -/
theorem c7_inner_content_context (render : RenderFn) (el : Element) (st : PassState)
    (tmpl : String) :
    Action.enter (Action.SetInnerContent tmpl) render el st
      = (render tmpl { tag := el.tag_name, attributes := btreeOfList el.attributes }).map
          (fun s => ({ el with inner := InnerContent.replaced s ContentType.Html }, st))
    ∧ (btreeOfList el.attributes).Pairwise (fun a b => a.1 < b.1)
    ∧ ((btreeOfList el.attributes).map Prod.fst).Nodup
    ∧ ∀ k, btLookup k (btreeOfList el.attributes) = btLookup k el.attributes.reverse := by
  refine ⟨?_, pairwise_btreeOfList _, ?_, fun k => btLookup_btreeOfList k _⟩
  · cases h : render tmpl { tag := el.tag_name, attributes := btreeOfList el.attributes } <;>
      simp [Action.enter, h]
  · exact List.Pairwise.map _ (fun a b h => ne_of_lt h) (pairwise_btreeOfList _)

/-- C1: for a pipeline with at least one declared pass, `Pipeline::build`
wires the compiled stages so that the chain walked from the external entry
point along the downstream (`next`) pointers lists the passes in reverse
declaration order — so the entry point is the stage of the last-declared
pass, each stage forwards to the stage of the pass declared immediately
before it, and the terminal stage (the one with no downstream, which writes
to the Execution Context's output buffer) is the first-declared pass.  Net
effect: passes execute in the reverse of their declaration order. -/
theorem c1_build_reverse_chain (pl : Pipeline) (h : pl.passes ≠ []) :
    pl.build.map (fun e => e.1.chain) = some pl.passes.reverse
    ∧ pl.build.map (fun e => e.1.pass) = pl.passes.getLast?
    ∧ pl.build.map (fun e => e.1.terminalPass) = pl.passes.head? := by
  match hp : pl.passes with
  | [] => exact absurd hp h
  | p :: rest =>
    obtain ⟨c', hc, hchain, hterm⟩ :=
      buildAux_chain rest (CStage.mk p p.buildState none) p.buildState
    have hbuild : pl.build = some (c', p.buildState) := by
      unfold Pipeline.build
      rw [hp]
      simp only [Pipeline.buildAux, Pass.buildC, Option.isNone_none, if_true]
      rw [hc]
    have hch : c'.chain = (p :: rest).reverse := by
      rw [hchain]
      simp [CStage.chain]
    refine ⟨?_, ?_, ?_⟩
    · rw [hbuild]
      simp [hch]
    · rw [hbuild]
      show some c'.pass = (p :: rest).getLast?
      rw [← List.head?_reverse, ← hch]
      exact (chain_head c').symm
    · rw [hbuild]
      show some c'.terminalPass = (p :: rest).head?
      rw [hterm]
      rfl

theorem c1_witness :
    c1Pipeline.passes ≠ []
    ∧ c1Pipeline.build.map (fun e => e.1.chain) = some c1Pipeline.passes.reverse
    ∧ c1Pipeline.build.map (fun e => e.1.pass) = c1Pipeline.passes.getLast?
    ∧ c1Pipeline.build.map (fun e => e.1.terminalPass) = c1Pipeline.passes.head? :=
  ⟨by decide, c1_build_reverse_chain c1Pipeline (by decide)⟩

/-- C5: a failing `SetInnerContent` render aborts the whole run with no
output handed to the caller, and the failing element's inner content is
never silently replaced: the action's enter yields no element at all. -/
theorem c5_render_failure_aborts (e : ExecM) (render : RenderFn)
    (t1 t2 : List PEvent) (ev : PEvent) (rs1 : RunState)
    (h1 : e.pass.runEvents render { st := e.passSt, out := [] } t1 = some rs1)
    (h2 : e.pass.runStep render rs1 ev = none) :
    e.exec render (t1 ++ ev :: t2) = none
    ∧ ∀ (tmpl : String) (el : Element) (st : PassState),
        render tmpl { tag := el.tag_name, attributes := btreeOfList el.attributes } = none →
        Action.enter (Action.SetInnerContent tmpl) render el st = none := by
  constructor
  · unfold ExecM.exec
    rw [runEvents_append, h1]
    simp [Pass.runEvents, h2]
  · intro tmpl el st hr
    simp [Action.enter, hr]

theorem c5_witness :
    ExecM.exec (ExecM.build ⟨0, [⟨"a", [Action.SetInnerContent "t"]⟩]⟩) (fun _ _ => none)
        ([] ++ PEvent.enterEl 0 ⟨"a", [], InnerContent.original⟩ :: []) = none
    ∧ Action.enter (Action.SetInnerContent "t") (fun _ _ => none)
        ⟨"a", [], InnerContent.original⟩ ⟨[]⟩ = none :=
  (fun h => ⟨h.1, h.2 "t" ⟨"a", [], InnerContent.original⟩ ⟨[]⟩ rfl⟩)
    (c5_render_failure_aborts (ExecM.build ⟨0, [⟨"a", [Action.SetInnerContent "t"]⟩]⟩)
      (fun _ _ => none) [] [] (PEvent.enterEl 0 ⟨"a", [], InnerContent.original⟩)
      ⟨⟨[true]⟩, []⟩ rfl rfl)

/-- C4 (refuting the claim on the code): `Exec::exec` installs a fresh output
buffer per invocation, but it does not allocate fresh per-pass state — the
visibility stacks created once by `Pass::build` live inside the compiled
rewriter and persist across invocations.  A first run whose input opens a
filtered element without closing it leaves an extra `true` entry on the
stack, and a second run on the same input then produces different output
than a first run on that input would. -/
theorem c4_state_leak :
    (ExecM.exec (ExecM.build ⟨0, [⟨"ul.menu", [Action.Filter]⟩]⟩) (fun _ _ => none)
        [PEvent.enterEl 0 ⟨"ul", [("class", "menu")], InnerContent.original⟩]).map
      (fun x => x.1.passSt)
      = some ⟨[false, true]⟩
    ∧ (⟨[false, true]⟩ : PassState) ≠ (ExecM.build ⟨0, [⟨"ul.menu", [Action.Filter]⟩]⟩).passSt
    ∧ ExecM.exec ⟨⟨0, [⟨"ul.menu", [Action.Filter]⟩]⟩, ⟨[false, true]⟩⟩ (fun _ _ => none)
        [PEvent.emit "x"]
      ≠ ExecM.exec (ExecM.build ⟨0, [⟨"ul.menu", [Action.Filter]⟩]⟩) (fun _ _ => none)
        [PEvent.emit "x"] := by
  refine ⟨?_, ?_, ?_⟩ <;> decide

/-- C8: over any balanced sequence of matched enter/leave events (each enter
properly nested with its leave for the same selector, emits anywhere), a
pass's visibility stack never drops below its single base entry — the
minimum depth observed at any event boundary is at least 1 — and when the
sequence completes the stack has returned exactly to its pre-pass-start
state (in particular to depth 1). -/
theorem c8_balanced_stack (p : Pass) (render : RenderFn) (t : List PEvent)
    (hbal : Balanced t) (rsF : RunState) (m : Nat)
    (hrun : p.runMin render ⟨p.buildState, []⟩ t = some (rsF, m)) :
    rsF.st = p.buildState
    ∧ 1 ≤ m
    ∧ rsF.st.output_enabled.length = 1
    ∧ p.runEvents render ⟨p.buildState, []⟩ t = some rsF := by
  obtain ⟨hst, hlen⟩ := balanced_runMin p render hbal ⟨p.buildState, []⟩ rsF m hrun
  refine ⟨hst, hlen, ?_, ?_⟩
  · rw [hst]
    rfl
  · rw [← runMin_runEvents, hrun]
    rfl

theorem c8_witness :
    (⟨⟨[false]⟩, ["a"]⟩ : RunState).st = Pass.buildState ⟨0, [⟨"ul.menu", [Action.Filter]⟩]⟩
    ∧ 1 ≤ 1
    ∧ (⟨⟨[false]⟩, ["a"]⟩ : RunState).st.output_enabled.length = 1
    ∧ Pass.runEvents ⟨0, [⟨"ul.menu", [Action.Filter]⟩]⟩ (fun _ _ => none)
        ⟨Pass.buildState ⟨0, [⟨"ul.menu", [Action.Filter]⟩]⟩, []⟩
        [PEvent.enterEl 0 ⟨"ul", [("class", "menu")], InnerContent.original⟩,
         PEvent.emit "a", PEvent.leaveEl 0 "ul"]
      = some ⟨⟨[false]⟩, ["a"]⟩ :=
  c8_balanced_stack ⟨0, [⟨"ul.menu", [Action.Filter]⟩]⟩ (fun _ _ => none) _
    (Balanced.wrap 0 ⟨"ul", [("class", "menu")], InnerContent.original⟩ "ul"
      [PEvent.emit "a"] []
      (Balanced.emit "a" [] Balanced.nil) Balanced.nil)
    ⟨⟨[false]⟩, ["a"]⟩ 1 (by decide)

/-- C9: a `RewriteAttribute` whose pattern does not match the attribute's
current value (absent treated as the empty string) leaves that value
byte-identical. -/
theorem c9_nonmatching_identity (render : RenderFn) (el : Element) (st : PassState)
    (attr : String) (pat : RePattern) (repl : String)
    (h : pat.matchesS ((el.get_attribute attr).getD "") = false) :
    (Action.enter (Action.RewriteAttribute attr pat repl) render el st).map
        (fun x => (x.1.get_attribute attr).getD "")
      = some ((el.get_attribute attr).getD "") := by
  have hv : pat.replaceAllS ((el.get_attribute attr).getD "") repl
      = (el.get_attribute attr).getD "" := by
    unfold RePattern.replaceAllS
    rw [replaceAll_of_not_matches _ _ _ h]
  simp [Action.enter, get_set_attribute, hv]

theorem c9_witness :
    (Regex.new "^http:").matchesS
        ((Element.get_attribute ⟨"a", [("href", "https://x")], InnerContent.original⟩
          "href").getD "") = false
    ∧ (Action.enter (Action.RewriteAttribute "href" (Regex.new "^http:") "https:")
          (fun _ _ => none) ⟨"a", [("href", "https://x")], InnerContent.original⟩ ⟨[]⟩).map
        (fun x => (x.1.get_attribute "href").getD "")
      = some "https://x" :=
  ⟨by decide,
   c9_nonmatching_identity (fun _ _ => none) ⟨"a", [("href", "https://x")], InnerContent.original⟩
     ⟨[]⟩ "href" (Regex.new "^http:") "https:" (by decide)⟩

end Hq
